import Mathlib

/-!
Shallow embedding of the shop-inventory program (src/main.cpp) and proofs
of its specified properties.

The C++ program keeps an in-memory `std::vector<Item>` inventory of stocked
items belonging to a fixed `Product` category enumeration, driven by a
console menu.  We embed:

* `Product` as `Int` (the C++ enum has underlying type `int`, and the UI
  reads raw `%d` values straight into it with `scanf`);
* the catalog table `PRODUCT_NAMES`, validity check `is_valid_product`
  and name lookup `get_product_name`;
* `Item` and `Inventory` with `add` (`emplace_back`), `remove`
  (`erase` at a position), `search` (`std::find_if`, returned here as an
  optional index, the value-initialised "not found" iterator becoming
  `none`) and `list` (the rendered table rows, as data);
* the interactive shell as a token-consuming interpreter: the add flow,
  the search flow, the found-item submenu and the fuelled main loop.
-/

namespace ShopInventory

/-- The C++ `enum class Product` has underlying type `int`; user input is
scanned into it as a raw integer, so the embedding is `Int`. -/
abbrev Product := Int

def Product.Invalid : Product := -1

def Product.Dresses : Product := 0

def Product.CropTops : Product := 1

def Product.SweatshirtsHoodies : Product := 2

def Product.Blouses : Product := 3

def Product.Skirts : Product := 4

def Product.Shorts : Product := 5

def Product.Jeans : Product := 6

def Product.MatchingSets : Product := 7

def Product.Swimwear : Product := 8

def Product.Accessories : Product := 9

def Product.Count : Product := 10

/-- The ten declared categories, in declaration order. -/
def declaredProducts : List Product :=
  [Product.Dresses, Product.CropTops, Product.SweatshirtsHoodies, Product.Blouses,
   Product.Skirts, Product.Shorts, Product.Jeans, Product.MatchingSets,
   Product.Swimwear, Product.Accessories]

/-- `PRODUCT_NAMES` from src/main.cpp: display names indexed by category. -/
def PRODUCT_NAMES : List String :=
  ["Dresses", "Crop Tops", "Sweatshirts & Hoodies", "Blouses", "Skirts",
   "Shorts", "Jeans", "MatchingSets", "Swimwear", "Accessories"]

/-- `is_valid_product`: `prod > Product::Invalid && prod < Product::Count`. -/
def is_valid_product (prod : Product) : Bool :=
  decide (Product.Invalid < prod) && decide (prod < Product.Count)

/-- `get_product_name`: empty string for an invalid product, else the
`PRODUCT_NAMES` entry at the product's index. -/
def get_product_name (prod : Product) : String :=
  if !is_valid_product prod then "" else PRODUCT_NAMES.getD prod.toNat ""

/-- `struct Item`: category, model-code string, price (no arithmetic is
ever performed on it, so an exact `Rat` stands in for the C++ `float`),
units in stock. -/
structure Item where
  id : Product
  name : String
  price : Rat
  nstock : Int
deriving DecidableEq, Repr, Inhabited

/-- `struct Inventory`: the ordered sequence of stocked items.  The C++
`reserve(MAX_ITEMS)` is an allocation hint with no semantic effect. -/
structure Inventory where
  items : List Item
deriving DecidableEq, Repr, Inhabited

/-- `Inventory::add`: `items.emplace_back(item)`. -/
def Inventory.add (inv : Inventory) (item : Item) : Inventory :=
  ⟨inv.items ++ [item]⟩

/-- `Inventory::remove`: `items.erase(pitem)` at the given position. -/
def Inventory.remove (inv : Inventory) (pitem : Nat) : Inventory :=
  ⟨inv.items.eraseIdx pitem⟩

/-- Index-returning embedding of `std::find_if(items.begin(), items.end(), pred)`. -/
def searchAux (pred : Item → Bool) : List Item → Option Nat
  | [] => none
  | item :: rest =>
      if pred item then some 0 else (searchAux pred rest).map (fun i => i + 1)

/-- `Inventory::search`: scan with `find_if`; the value-initialised
"not found" iterator becomes `none`, a hit becomes its position. -/
def Inventory.search (inv : Inventory) (pred : Item → Bool) : Option Nat :=
  searchAux pred inv.items

/-- One printed row of the `Inventory::list` table. -/
structure Row where
  product : String
  modelCode : String
  price : Rat
  qty : Int
deriving DecidableEq, Repr

/-- `Inventory::list`: the table rows it prints, one per item, in
current sequence order. -/
def Inventory.list (inv : Inventory) : List Row :=
  inv.items.map (fun item => ⟨get_product_name item.id, item.name, item.price, item.nstock⟩)

/-- The edit path of `InventoryUI::handle_search_option`: remove the found
item, then append the replacement collected by the add flow. -/
def Inventory.edit (inv : Inventory) (pitem : Nat) (newItem : Item) : Inventory :=
  (inv.remove pitem).add newItem

end ShopInventory

namespace ShopInventory

/-- C6: `is_valid_product` accepts exactly the identifiers strictly between
the `Invalid` sentinel and the `Count` marker: it rejects `Invalid`,
rejects `Count`, rejects every value outside the open range, and accepts
each of the ten declared categories. -/
theorem is_valid_product_iff_between :
    (∀ p : Product, is_valid_product p = true ↔ (Product.Invalid < p ∧ p < Product.Count)) ∧
    is_valid_product Product.Invalid = false ∧
    is_valid_product Product.Count = false ∧
    (∀ p : Product, (p ≤ Product.Invalid ∨ Product.Count ≤ p) → is_valid_product p = false) ∧
    declaredProducts.all is_valid_product = true := by
  refine ⟨?_, by decide, by decide, ?_, by decide⟩
  · intro p
    simp [is_valid_product]
  · intro p hp
    simp only [is_valid_product, Bool.and_eq_false_iff, decide_eq_false_iff_not, not_lt]
    rcases hp with h | h
    · exact Or.inl h
    · exact Or.inr h

/-- Witness for C6: the rejection clause applied at the concrete value 42. -/
theorem is_valid_product_iff_between_witness :
    is_valid_product 42 = false :=
  is_valid_product_iff_between.2.2.2.1 42 (by decide)

/-- C7: `get_product_name` returns the declared display string for a valid
category and the empty string for an invalid one; in particular
`get_product_name Product.Dresses = "Dresses"` and
`get_product_name Product.Count = ""`. -/
theorem get_product_name_spec :
    (∀ p : Product, is_valid_product p = false → get_product_name p = "") ∧
    get_product_name Product.Dresses = "Dresses" ∧
    get_product_name Product.Count = "" ∧
    get_product_name Product.Invalid = "" ∧
    declaredProducts.map get_product_name = PRODUCT_NAMES := by
  refine ⟨?_, by decide, by decide, by decide, by decide⟩
  intro p hp
  simp [get_product_name, hp]

/-- Witness for C7: the invalid-category clause applied at `Product.Count`. -/
theorem get_product_name_spec_witness :
    get_product_name Product.Count = "" :=
  get_product_name_spec.1 Product.Count (by decide)

/-- `find_if` scan: a hit is the least index satisfying the predicate. -/
theorem searchAux_eq_some_iff (pred : Item → Bool) :
    ∀ (l : List Item) (i : Nat),
      searchAux pred l = some i ↔
        (∃ x, l.get? i = some x ∧ pred x = true) ∧
        ∀ j, j < i → ∀ y, l.get? j = some y → pred y = false := by
  intro l
  induction l with
  | nil => intro i; simp [searchAux]
  | cons a rest ih =>
    intro i
    by_cases hp : pred a = true
    · simp only [searchAux, hp, if_true]
      constructor
      · intro h
        injection h with h
        subst h
        exact ⟨⟨a, rfl, hp⟩, fun j hj y _ => absurd hj (Nat.not_lt_zero j)⟩
      · rintro ⟨⟨x, hx, hpx⟩, hmin⟩
        cases i with
        | zero => rfl
        | succ i' =>
          have h0 := hmin 0 (Nat.succ_pos i') a rfl
          rw [hp] at h0
          exact absurd h0 (by simp)
    · have hp' : pred a = false := by simpa using hp
      simp only [searchAux, hp', if_false, Bool.false_eq_true]
      cases i with
      | zero =>
        constructor
        · intro h
          rcases Option.map_eq_some'.mp h with ⟨i', _, hi'⟩
          exact absurd hi' (Nat.succ_ne_zero i')
        · rintro ⟨⟨x, hx, hpx⟩, _⟩
          rw [List.get?_cons_zero] at hx
          injection hx with hx
          subst hx
          rw [hp'] at hpx
          exact absurd hpx (by simp)
      | succ i' =>
        rw [show ∀ o : Option Nat, (o.map (fun k => k + 1) = some (i' + 1)) ↔ o = some i' by
              intro o
              constructor
              · intro h
                rcases Option.map_eq_some'.mp h with ⟨k, hk, hk1⟩
                have : k = i' := Nat.succ_injective hk1
                rw [this] at hk
                exact hk
              · intro h
                rw [h]
                rfl]
        rw [ih i']
        constructor
        · rintro ⟨⟨x, hx, hpx⟩, hmin⟩
          refine ⟨⟨x, by simpa using hx, hpx⟩, ?_⟩
          intro j hj y hy
          cases j with
          | zero =>
            rw [List.get?_cons_zero] at hy
            injection hy with hy
            subst hy
            exact hp'
          | succ j' =>
            rw [List.get?_cons_succ] at hy
            exact hmin j' (Nat.lt_of_succ_lt_succ hj) y hy
        · rintro ⟨⟨x, hx, hpx⟩, hmin⟩
          refine ⟨⟨x, by simpa using hx, hpx⟩, ?_⟩
          intro j hj y hy
          exact hmin (j + 1) (Nat.succ_lt_succ hj) y (by simpa using hy)

/-- `find_if` scan: no hit exactly when no element satisfies the predicate. -/
theorem searchAux_eq_none_iff (pred : Item → Bool) :
    ∀ l : List Item, searchAux pred l = none ↔ ∀ x ∈ l, pred x = false := by
  intro l
  induction l with
  | nil => simp [searchAux]
  | cons a rest ih =>
    by_cases hp : pred a = true
    · simp [searchAux, hp]
    · have hp' : pred a = false := by simpa using hp
      simp [searchAux, hp', ih]

/-- A successful search yields an in-range index. -/
theorem search_some_lt_length (inv : Inventory) (pred : Item → Bool) (i : Nat)
    (h : inv.search pred = some i) : i < inv.items.length := by
  rcases ((searchAux_eq_some_iff pred inv.items i).mp h).1 with ⟨x, hx, _⟩
  exact List.get?_eq_some.mp hx |>.1

/-- C1: for every inventory and caller-supplied predicate, `search` returns
the position of the first element (in sequence order) satisfying the
predicate, and returns an empty result if and only if no element
satisfies it. -/
theorem search_first_satisfying (inv : Inventory) (pred : Item → Bool) :
    (∀ i, inv.search pred = some i →
       (∃ x, inv.items.get? i = some x ∧ pred x = true) ∧
       ∀ j, j < i → ∀ y, inv.items.get? j = some y → pred y = false) ∧
    (inv.search pred = none ↔ ∀ x ∈ inv.items, pred x = false) := by
  constructor
  · intro i h
    exact (searchAux_eq_some_iff pred inv.items i).mp h
  · exact searchAux_eq_none_iff pred inv.items

/-- Concrete item used in witnesses: a skirt with model code "A". -/
def itemA : Item := ⟨Product.Skirts, "A", 25, 12⟩

/-- Concrete item used in witnesses: a dress with model code "B". -/
def itemB : Item := ⟨Product.Dresses, "B", 10, 3⟩

/-- Witness for C1: the first-match clause applied to a two-item inventory. -/
theorem search_first_satisfying_witness :
    (∃ x, (Inventory.mk [itemA, itemB]).items.get? 1 = some x ∧
       (fun it => it.name == "B") x = true) ∧
    ∀ j, j < 1 → ∀ y, (Inventory.mk [itemA, itemB]).items.get? j = some y →
      (fun it => it.name == "B") y = false :=
  (search_first_satisfying ⟨[itemA, itemB]⟩ (fun it => it.name == "B")).1 1 rfl

/-- C2: `add` appends at the end and always succeeds, with no duplicate or
capacity check; hence any sequence of `add` operations (of any length,
including beyond the advisory capacity of 30) leaves exactly the added
items in insertion order, and `list` renders them in that order. -/
theorem add_appends_and_list_in_order :
    (∀ (inv : Inventory) (item : Item), (inv.add item).items = inv.items ++ [item]) ∧
    (∀ (start : Inventory) (adds : List Item),
       (adds.foldl Inventory.add start).items = start.items ++ adds) ∧
    (∀ adds : List Item,
       (adds.foldl Inventory.add (Inventory.mk [])).list =
         adds.map (fun item =>
           Row.mk (get_product_name item.id) item.name item.price item.nstock)) := by
  have hfold : ∀ (adds : List Item) (start : Inventory),
      (adds.foldl Inventory.add start).items = start.items ++ adds := by
    intro adds
    induction adds with
    | nil => intro start; simp
    | cons a rest ih =>
      intro start
      simp only [List.foldl_cons, ih, Inventory.add, List.append_assoc, List.singleton_append]
  refine ⟨fun inv item => rfl, fun start adds => hfold adds start, ?_⟩
  intro adds
  simp [Inventory.list, hfold adds ⟨[]⟩]

/-- Erasure at a position keeps the prefix and shifts up the suffix. -/
theorem eraseIdx_eq_take_append_drop {α : Type} :
    ∀ (l : List α) (i : Nat), l.eraseIdx i = l.take i ++ l.drop (i + 1) := by
  intro l
  induction l with
  | nil => intro i; simp [List.eraseIdx]
  | cons a rest ih =>
    intro i
    cases i with
    | zero => simp [List.eraseIdx]
    | succ i' => simp [List.eraseIdx, ih i']

/-- C3: `remove` at a position handle obtained from a successful `search`
(with no intervening mutation) decreases the size by exactly one and
removes exactly the element at that position: the prefix before it and the
suffix after it survive in their relative order. -/
theorem remove_at_found_position (inv : Inventory) (pred : Item → Bool) (i : Nat)
    (h : inv.search pred = some i) :
    (inv.remove i).items.length + 1 = inv.items.length ∧
    (inv.remove i).items = inv.items.take i ++ inv.items.drop (i + 1) := by
  have hlt : i < inv.items.length := search_some_lt_length inv pred i h
  exact ⟨List.length_eraseIdx_add_one hlt, eraseIdx_eq_take_append_drop inv.items i⟩

/-- Witness for C3: removal at the handle found for model code "B". -/
theorem remove_at_found_position_witness :
    ((Inventory.mk [itemA, itemB]).remove 1).items.length + 1 =
      (Inventory.mk [itemA, itemB]).items.length ∧
    ((Inventory.mk [itemA, itemB]).remove 1).items =
      (Inventory.mk [itemA, itemB]).items.take 1 ++ (Inventory.mk [itemA, itemB]).items.drop 2 :=
  remove_at_found_position ⟨[itemA, itemB]⟩ (fun it => it.name == "B") 1 rfl

/-- Counterexample to C4 as stated: with a duplicate of the found item X in
the inventory (duplicates are explicitly permitted), editing one occurrence
of X into Y leaves the other occurrence, so X still appears afterwards. -/
theorem edit_duplicate_x_still_appears :
    (Inventory.mk [itemA, itemA]).search (fun it => it.name == "A") = some 0 ∧
    itemA ≠ itemB ∧
    itemA ∈ ((Inventory.mk [itemA, itemA]).edit 0 itemB).items := by
  refine ⟨rfl, ?_, ?_⟩
  · intro h
    exact absurd (congrArg Item.name h) (by decide)
  · show itemA ∈ [itemA, itemB]
    exact List.mem_cons_self _ _

/-- C4 (amended): if the found item X occurs at position i and nowhere
else in the inventory, and the replacement Y differs from X, then the edit
operation (remove X, append Y) yields an inventory whose last element is Y
and in which X no longer appears. -/
theorem edit_appends_replacement (inv : Inventory) (i : Nat) (x y : Item)
    (hx : inv.items.get? i = some x)
    (huniq : ∀ k z, k ≠ i → inv.items.get? k = some z → z ≠ x)
    (hxy : y ≠ x) :
    (inv.edit i y).items.getLast? = some y ∧ x ∉ (inv.edit i y).items := by
  constructor
  · show ((inv.items.eraseIdx i) ++ [y]).getLast? = some y
    exact List.getLast?_concat _
  · intro hmem
    rcases List.mem_append.mp hmem with hmem | hmem
    · rcases List.mem_eraseIdx_iff_get?.mp hmem with ⟨k, hk, hkx⟩
      exact absurd rfl (huniq k x hk hkx)
    · have : x = y := List.mem_singleton.mp hmem
      exact hxy this.symm

/-- Witness for C4 (amended): editing the unique "A" item into itemB. -/
theorem edit_appends_replacement_witness :
    ((Inventory.mk [itemA]).edit 0 itemB).items.getLast? = some itemB ∧
    itemA ∉ ((Inventory.mk [itemA]).edit 0 itemB).items := by
  refine edit_appends_replacement ⟨[itemA]⟩ 0 itemA itemB rfl ?_ ?_
  · intro k z hk hz
    cases k with
    | zero => exact absurd rfl hk
    | succ k' => exact absurd hz (by cases k' <;> simp)
  · intro h
    exact absurd (congrArg Item.name h) (by decide)

/-- Erasure at position i leaves indices below i untouched. -/
theorem get?_eraseIdx_of_lt {α : Type} :
    ∀ (l : List α) (i k : Nat), k < i → (l.eraseIdx i).get? k = l.get? k := by
  intro l
  induction l with
  | nil => intro i k _; simp [List.eraseIdx]
  | cons a rest ih =>
    intro i k hk
    cases i with
    | zero => exact absurd hk (Nat.not_lt_zero k)
    | succ i' =>
      cases k with
      | zero => simp [List.eraseIdx]
      | succ k' =>
        simp only [List.eraseIdx, List.get?_cons_succ]
        exact ih i' k' (Nat.lt_of_succ_lt_succ hk)

/-- Erasure at an in-range position i shifts indices at or above i down. -/
theorem get?_eraseIdx_of_ge {α : Type} :
    ∀ (l : List α) (i k : Nat), i < l.length → i ≤ k →
      (l.eraseIdx i).get? k = l.get? (k + 1) := by
  intro l
  induction l with
  | nil => intro i k hi _; exact absurd hi (Nat.not_lt_zero i)
  | cons a rest ih =>
    intro i k hi hk
    cases i with
    | zero => simp [List.eraseIdx]
    | succ i' =>
      cases k with
      | zero => exact absurd hk (Nat.not_succ_le_zero i')
      | succ k' =>
        simp only [List.eraseIdx, List.get?_cons_succ]
        exact ih i' k' (Nat.lt_of_succ_lt_succ hi) (Nat.le_of_succ_le_succ hk)

/-- C5: if exactly two items of the inventory carry model code m, at
positions i < j, then search by m returns the first one (position i), and
after removing it a second search by m returns the other item, now at
position j - 1. -/
theorem duplicate_name_search_first_then_second (inv : Inventory) (m : String)
    (i j : Nat) (xi xj : Item)
    (hij : i < j)
    (hi : inv.items.get? i = some xi) (hni : xi.name = m)
    (hj : inv.items.get? j = some xj) (hnj : xj.name = m)
    (hother : ∀ k y, k ≠ i → k ≠ j → inv.items.get? k = some y → y.name ≠ m) :
    inv.search (fun it => it.name == m) = some i ∧
    (inv.remove i).search (fun it => it.name == m) = some (j - 1) ∧
    (inv.remove i).items.get? (j - 1) = some xj := by
  have hilen : i < inv.items.length := (List.get?_eq_some.mp hi).1
  have hj1 : j - 1 + 1 = j := Nat.succ_pred_eq_of_pos (Nat.lt_of_le_of_lt (Nat.zero_le i) hij)
  have hgetj : (inv.remove i).items.get? (j - 1) = some xj := by
    show ((inv.items.eraseIdx i).get? (j - 1)) = some xj
    rw [get?_eraseIdx_of_ge inv.items i (j - 1) hilen (Nat.le_sub_one_of_lt hij), hj1]
    exact hj
  refine ⟨?_, ?_, hgetj⟩
  · apply (searchAux_eq_some_iff _ inv.items i).mpr
    refine ⟨⟨xi, hi, by simp [hni]⟩, ?_⟩
    intro k hk y hy
    have hkj : k ≠ j := Nat.ne_of_lt (Nat.lt_trans hk hij)
    have := hother k y (Nat.ne_of_lt hk) hkj hy
    simpa using this
  · apply (searchAux_eq_some_iff _ ((inv.remove i).items) (j - 1)).mpr
    refine ⟨⟨xj, hgetj, by simp [hnj]⟩, ?_⟩
    intro k hk y hy
    by_cases hki : k < i
    · rw [show ((inv.remove i).items.get? k) = inv.items.get? k from
            get?_eraseIdx_of_lt inv.items i k hki] at hy
      have hkj : k ≠ j := Nat.ne_of_lt (Nat.lt_trans hki hij)
      have := hother k y (Nat.ne_of_lt hki) hkj hy
      simpa using this
    · have hik : i ≤ k := Nat.le_of_not_lt hki
      rw [show ((inv.remove i).items.get? k) = inv.items.get? (k + 1) from
            get?_eraseIdx_of_ge inv.items i k hilen hik] at hy
      have hk1i : k + 1 ≠ i := by omega
      have hk1j : k + 1 ≠ j := by omega
      have := hother (k + 1) y hk1i hk1j hy
      simpa using this

/-- Concrete duplicate-model-code item used in witnesses: first "DUP". -/
def dupA : Item := ⟨Product.Dresses, "DUP", 5, 1⟩

/-- Concrete duplicate-model-code item used in witnesses: second "DUP". -/
def dupB : Item := ⟨Product.Skirts, "DUP", 7, 2⟩

/-- Witness for C5: two "DUP" items; search finds the first, and after
removing it, search finds the second. -/
theorem duplicate_name_search_witness :
    (Inventory.mk [dupA, dupB]).search (fun it => it.name == "DUP") = some 0 ∧
    ((Inventory.mk [dupA, dupB]).remove 0).search (fun it => it.name == "DUP") = some (1 - 1) ∧
    ((Inventory.mk [dupA, dupB]).remove 0).items.get? (1 - 1) = some dupB := by
  refine duplicate_name_search_first_then_second ⟨[dupA, dupB]⟩ "DUP" 0 1 dupA dupB
    (by decide) rfl rfl rfl rfl ?_
  intro k y hk0 hk1 hy
  cases k with
  | zero => exact absurd rfl hk0
  | succ k' =>
    cases k' with
    | zero => exact absurd rfl hk1
    | succ k'' => exact absurd hy (by cases k'' <;> simp)

/-- One unit of console input, as consumed by the shell: a menu character
(`scanf " %c"` / `cin >> char`), a raw integer (`scanf "%d"` /
`cin >> int`), a whitespace-trimmed line (`getline`), or a numeric price
(`cin >> float`). -/
inductive Token
  | ch (c : Char)
  | intTok (n : Int)
  | strTok (s : String)
  | numTok (q : Rat)
deriving DecidableEq, Repr

/-- The unconditional field prompts of `InventoryUI::handle_add_option`
once a valid category was selected: read model code, price and quantity
and construct the item. -/
def read_item_fields (pid : Product) : List Token → Option (Item × List Token)
  | Token.strTok nm :: Token.numTok price :: Token.intTok nstock :: rest2 =>
      some (⟨pid, nm, price, nstock⟩, rest2)
  | _ => none

/-- `InventoryUI::handle_add_option`: loop prompting for a category index
until a valid one is read, then read model code, price and quantity and
return the constructed item.  `none` models exhausted or malformed input,
on which the C++ loop would block or misbehave (unspecified per the spec). -/
def handle_add_option : List Token → Option (Item × List Token)
  | Token.intTok pid :: rest =>
      if is_valid_product pid then read_item_fields pid rest
      else handle_add_option rest
  | _ => none

/-- The found-item submenu of `InventoryUI::handle_search_option`: loop
offering remove (`r`), edit (`e`), quit-submenu (`q`); an unrecognized
selection repeats the menu. -/
def found_item_menu (inv : Inventory) (pitem : Nat) : List Token → Option (Inventory × List Token)
  | Token.ch c :: rest =>
      if c = 'r' then some (inv.remove pitem, rest)
      else if c = 'e' then
        match handle_add_option rest with
        | some (newItem, rest2) => some (inv.edit pitem newItem, rest2)
        | none => none
      else if c = 'q' then some (inv, rest)
      else found_item_menu inv pitem rest
  | _ => none

/-- Resume after the predicate search in `handle_search_option`: a hit
enters the found-item submenu, a miss reports and returns to the main
menu. -/
def after_search (inv : Inventory) (res : Option Nat) (rest2 : List Token) :
    Option (Inventory × List Token) :=
  match res with
  | some pitem => found_item_menu inv pitem rest2
  | none => some (inv, rest2)

/-- The by-name branch of the search flow: read the model name and search
for an exact match on it. -/
def search_name_flow (inv : Inventory) : List Token → Option (Inventory × List Token)
  | Token.strTok nm :: rest2 =>
      after_search inv (inv.search (fun item => item.name == nm)) rest2
  | _ => none

/-- The by-category branch of the search flow: read a raw category id and
search for an exact match on it. -/
def search_cat_flow (inv : Inventory) : List Token → Option (Inventory × List Token)
  | Token.intTok prod :: rest2 =>
      after_search inv (inv.search (fun item => item.id == prod)) rest2
  | _ => none

/-- `InventoryUI::handle_search_option`: read the search mode (`n` name or
`p` category), run the predicate search, and on a hit enter the found-item
submenu; on a miss or an unrecognized mode return to the main menu. -/
def handle_search_option (inv : Inventory) : List Token → Option (Inventory × List Token)
  | Token.ch opt :: rest =>
      if opt = 'n' then search_name_flow inv rest
      else if opt = 'p' then search_cat_flow inv rest
      else some (inv, rest)
  | _ => none

/-- Outcome of one iteration of the main-menu loop in `InventoryUI::run`:
leave the loop (`q`), go round again with a possibly updated inventory, or
get stuck on exhausted/malformed input (a model artifact). -/
inductive StepResult
  | exit (inv : Inventory) (rest : List Token)
  | next (inv : Inventory) (rest : List Token)
  | stuck
deriving DecidableEq, Repr

/-- Whether the step left the main loop. -/
def StepResult.isExit : StepResult → Bool
  | .exit _ _ => true
  | _ => false

/-- One iteration of the `do { ... } while (true)` main loop of
`InventoryUI::run`: read a command character and dispatch. -/
def main_menu_step (inv : Inventory) : List Token → StepResult
  | Token.ch opt :: rest =>
      if opt = 'a' then
        match handle_add_option rest with
        | some (item, rest2) => StepResult.next (inv.add item) rest2
        | none => StepResult.stuck
      else if opt = 's' then
        match handle_search_option inv rest with
        | some (inv2, rest2) => StepResult.next inv2 rest2
        | none => StepResult.stuck
      else if opt = 'p' then StepResult.next inv rest
      else if opt = 'l' then StepResult.next inv rest
      else if opt = 'q' then StepResult.exit inv rest
      else StepResult.next inv rest
  | _ => StepResult.stuck

/-- `InventoryUI::run`: iterate the main-menu loop.  Fuel bounds the model
recursion; `some` is normal termination via quit, `none` is running out of
fuel or input. -/
def run_loop : Nat → Inventory → List Token → Option (Inventory × List Token)
  | 0, _, _ => none
  | fuel + 1, inv, input =>
      match main_menu_step inv input with
      | StepResult.exit inv2 rest => some (inv2, rest)
      | StepResult.next inv2 rest => run_loop fuel inv2 rest
      | StepResult.stuck => none

/-- C9: selecting quit-submenu (`q`) in the found-item menu returns control
to the main menu with the inventory unchanged, for every inventory and
every found position handle. -/
theorem quit_submenu_preserves_inventory (inv : Inventory) (pitem : Nat) (rest : List Token) :
    found_item_menu inv pitem (Token.ch 'q' :: rest) = some (inv, rest) := rfl

/-- C8: the main loop exits exactly on the command `q`; an unrecognized
main-menu command leaves the loop running with the inventory unchanged. -/
theorem main_loop_exits_only_on_q :
    (∀ (inv : Inventory) (input : List Token),
       (main_menu_step inv input).isExit = true ↔ ∃ rest, input = Token.ch 'q' :: rest) ∧
    (∀ (inv : Inventory) (opt : Char) (rest : List Token),
       opt ∉ (['a', 's', 'p', 'l', 'q'] : List Char) →
       main_menu_step inv (Token.ch opt :: rest) = StepResult.next inv rest) := by
  constructor
  · intro inv input
    match input with
    | [] => simp [main_menu_step, StepResult.isExit]
    | Token.intTok n :: rest => simp [main_menu_step, StepResult.isExit]
    | Token.strTok s :: rest => simp [main_menu_step, StepResult.isExit]
    | Token.numTok q :: rest => simp [main_menu_step, StepResult.isExit]
    | Token.ch opt :: rest =>
      constructor
      · intro h
        by_cases ha : opt = 'a'
        · rw [main_menu_step, if_pos ha] at h
          rcases hcall : handle_add_option rest with _ | ⟨item, rest2⟩ <;>
            rw [hcall] at h <;> simp [StepResult.isExit] at h
        · by_cases hs : opt = 's'
          · rw [main_menu_step, if_neg ha, if_pos hs] at h
            rcases hcall : handle_search_option inv rest with _ | ⟨inv2, rest2⟩ <;>
              rw [hcall] at h <;> simp [StepResult.isExit] at h
          · by_cases hp : opt = 'p'
            · rw [main_menu_step, if_neg ha, if_neg hs, if_pos hp] at h
              simp [StepResult.isExit] at h
            · by_cases hl : opt = 'l'
              · rw [main_menu_step, if_neg ha, if_neg hs, if_neg hp, if_pos hl] at h
                simp [StepResult.isExit] at h
              · by_cases hq : opt = 'q'
                · exact ⟨rest, by rw [hq]⟩
                · rw [main_menu_step, if_neg ha, if_neg hs, if_neg hp, if_neg hl,
                      if_neg hq] at h
                  simp [StepResult.isExit] at h
      · rintro ⟨rest', hrest⟩
        injection hrest with h1 h2
        injection h1 with h1
        subst h1
        subst h2
        rfl
  · intro inv opt rest h
    simp only [List.mem_cons, not_or] at h
    obtain ⟨ha, hs, hp, hl, hq, -⟩ := h
    rw [main_menu_step, if_neg ha, if_neg hs, if_neg hp, if_neg hl, if_neg hq]

/-- Witness for C8: `q` exits; the unrecognized command `x` stays in the
main menu with the inventory unchanged. -/
theorem main_loop_exits_only_on_q_witness :
    (main_menu_step (Inventory.mk []) [Token.ch 'q']).isExit = true ∧
    main_menu_step (Inventory.mk []) [Token.ch 'x'] = StepResult.next (Inventory.mk []) [] :=
  ⟨(main_loop_exits_only_on_q.1 ⟨[]⟩ [Token.ch 'q']).mpr ⟨[], rfl⟩,
   main_loop_exits_only_on_q.2 ⟨[]⟩ 'x' [] (by decide)⟩

/-- Validity invariant: every stored item carries a valid category. -/
def Inventory.valid (inv : Inventory) : Prop :=
  ∀ item ∈ inv.items, is_valid_product item.id = true

/-- Appending an item with a valid category preserves the invariant. -/
theorem add_preserves_valid (inv : Inventory) (item : Item)
    (hv : inv.valid) (hitem : is_valid_product item.id = true) : (inv.add item).valid := by
  intro x hx
  rcases List.mem_append.mp hx with hx | hx
  · exact hv x hx
  · rw [List.mem_singleton.mp hx]
    exact hitem

/-- Removing an item preserves the invariant. -/
theorem remove_preserves_valid (inv : Inventory) (pitem : Nat)
    (hv : inv.valid) : (inv.remove pitem).valid := by
  intro x hx
  exact hv x (List.eraseIdx_subset _ _ hx)

/-- The field prompts construct the item with exactly the selected
category. -/
theorem read_item_fields_id (pid : Product) (input : List Token) (item : Item)
    (rest : List Token) (h : read_item_fields pid input = some (item, rest)) :
    item.id = pid := by
  rw [read_item_fields.eq_def] at h
  split at h
  · injection h with h
    injection h with h1 h2
    rw [← h1]
  · exact absurd h (by simp)

/-- The add flow only ever returns an item with a valid category: the
category prompt loops until `is_valid_product` holds. -/
theorem handle_add_option_valid :
    ∀ (input : List Token) (item : Item) (rest : List Token),
      handle_add_option input = some (item, rest) → is_valid_product item.id = true := by
  intro input
  induction input with
  | nil => intro item rest h; exact absurd h (by simp [handle_add_option])
  | cons t input' ih =>
    intro item rest h
    cases t with
    | ch c => exact absurd h (by simp [handle_add_option])
    | strTok s => exact absurd h (by simp [handle_add_option])
    | numTok q => exact absurd h (by simp [handle_add_option])
    | intTok pid =>
      rw [handle_add_option] at h
      by_cases hvp : is_valid_product pid = true
      · rw [if_pos hvp] at h
        rw [read_item_fields_id pid input' item rest h]
        exact hvp
      · rw [if_neg hvp] at h
        exact ih item rest h

/-- The found-item submenu preserves the validity invariant. -/
theorem found_item_menu_preserves_valid :
    ∀ (input : List Token) (inv : Inventory) (pitem : Nat) (inv2 : Inventory)
      (rest : List Token), inv.valid →
      found_item_menu inv pitem input = some (inv2, rest) → inv2.valid := by
  intro input
  induction input with
  | nil => intro inv pitem inv2 rest _ h; exact absurd h (by simp [found_item_menu])
  | cons t input' ih =>
    intro inv pitem inv2 rest hv h
    cases t with
    | intTok n => exact absurd h (by simp [found_item_menu])
    | strTok s => exact absurd h (by simp [found_item_menu])
    | numTok q => exact absurd h (by simp [found_item_menu])
    | ch c =>
      rw [found_item_menu] at h
      by_cases hr : c = 'r'
      · rw [if_pos hr] at h
        injection h with h
        injection h with h1 h2
        rw [← h1]
        exact remove_preserves_valid inv pitem hv
      · rw [if_neg hr] at h
        by_cases he : c = 'e'
        · rw [if_pos he] at h
          rcases hcall : handle_add_option input' with _ | ⟨newItem, rest2⟩ <;>
            rw [hcall] at h
          · exact absurd h (by simp)
          · injection h with h
            injection h with h1 h2
            rw [← h1]
            exact add_preserves_valid _ _ (remove_preserves_valid inv pitem hv)
              (handle_add_option_valid input' newItem rest2 hcall)
        · rw [if_neg he] at h
          by_cases hq : c = 'q'
          · rw [if_pos hq] at h
            injection h with h
            injection h with h1 h2
            rw [← h1]
            exact hv
          · rw [if_neg hq] at h
            exact ih inv pitem inv2 rest hv h

/-- The post-search dispatch preserves the validity invariant. -/
theorem after_search_preserves_valid (inv : Inventory) (res : Option Nat)
    (rest2 : List Token) (inv2 : Inventory) (rest : List Token)
    (hv : inv.valid) (h : after_search inv res rest2 = some (inv2, rest)) :
    inv2.valid := by
  cases res with
  | none =>
    rw [show after_search inv none rest2 = some (inv, rest2) from rfl] at h
    injection h with h
    injection h with h1 h2
    rw [← h1]
    exact hv
  | some pitem => exact found_item_menu_preserves_valid rest2 inv pitem inv2 rest hv h

/-- The by-name search branch preserves the validity invariant. -/
theorem search_name_flow_preserves_valid (inv : Inventory) (input : List Token)
    (inv2 : Inventory) (rest : List Token) (hv : inv.valid)
    (h : search_name_flow inv input = some (inv2, rest)) : inv2.valid := by
  rw [search_name_flow.eq_def] at h
  split at h
  · exact after_search_preserves_valid inv _ _ inv2 rest hv h
  · exact absurd h (by simp)

/-- The by-category search branch preserves the validity invariant. -/
theorem search_cat_flow_preserves_valid (inv : Inventory) (input : List Token)
    (inv2 : Inventory) (rest : List Token) (hv : inv.valid)
    (h : search_cat_flow inv input = some (inv2, rest)) : inv2.valid := by
  rw [search_cat_flow.eq_def] at h
  split at h
  · exact after_search_preserves_valid inv _ _ inv2 rest hv h
  · exact absurd h (by simp)

/-- The search flow preserves the validity invariant. -/
theorem handle_search_option_preserves_valid
    (input : List Token) (inv : Inventory) (inv2 : Inventory) (rest : List Token)
    (hv : inv.valid) (h : handle_search_option inv input = some (inv2, rest)) :
    inv2.valid := by
  match input with
  | [] => exact absurd h (by simp [handle_search_option])
  | Token.intTok n :: rest' => exact absurd h (by simp [handle_search_option])
  | Token.strTok s :: rest' => exact absurd h (by simp [handle_search_option])
  | Token.numTok q :: rest' => exact absurd h (by simp [handle_search_option])
  | Token.ch opt :: rest' =>
    rw [handle_search_option] at h
    by_cases hn : opt = 'n'
    · rw [if_pos hn] at h
      exact search_name_flow_preserves_valid inv rest' inv2 rest hv h
    · rw [if_neg hn] at h
      by_cases hp : opt = 'p'
      · rw [if_pos hp] at h
        exact search_cat_flow_preserves_valid inv rest' inv2 rest hv h
      · rw [if_neg hp] at h
        injection h with h
        injection h with h1 h2
        rw [← h1]
        exact hv

/-- One main-menu iteration preserves the validity invariant, whether it
continues or exits. -/
theorem main_menu_step_preserves_valid
    (inv : Inventory) (input : List Token) (hv : inv.valid) :
    (∀ inv2 rest, main_menu_step inv input = StepResult.next inv2 rest → inv2.valid) ∧
    (∀ inv2 rest, main_menu_step inv input = StepResult.exit inv2 rest → inv2.valid) := by
  match input with
  | [] => exact ⟨fun inv2 rest h => absurd h (by simp [main_menu_step]),
                 fun inv2 rest h => absurd h (by simp [main_menu_step])⟩
  | Token.intTok n :: rest' =>
    exact ⟨fun inv2 rest h => absurd h (by simp [main_menu_step]),
           fun inv2 rest h => absurd h (by simp [main_menu_step])⟩
  | Token.strTok s :: rest' =>
    exact ⟨fun inv2 rest h => absurd h (by simp [main_menu_step]),
           fun inv2 rest h => absurd h (by simp [main_menu_step])⟩
  | Token.numTok q :: rest' =>
    exact ⟨fun inv2 rest h => absurd h (by simp [main_menu_step]),
           fun inv2 rest h => absurd h (by simp [main_menu_step])⟩
  | Token.ch opt :: rest' =>
    constructor <;> intro inv2 rest h <;> rw [main_menu_step] at h
    · by_cases ha : opt = 'a'
      · rw [if_pos ha] at h
        rcases hcall : handle_add_option rest' with _ | ⟨item, rest2⟩ <;> rw [hcall] at h
        · exact absurd h (by simp)
        · injection h with h1 h2
          rw [← h1]
          exact add_preserves_valid inv item hv
            (handle_add_option_valid rest' item rest2 hcall)
      · rw [if_neg ha] at h
        by_cases hs : opt = 's'
        · rw [if_pos hs] at h
          rcases hcall : handle_search_option inv rest' with _ | ⟨inv3, rest2⟩ <;>
            rw [hcall] at h
          · exact absurd h (by simp)
          · injection h with h1 h2
            rw [← h1]
            exact handle_search_option_preserves_valid rest' inv inv3 rest2 hv hcall
        · rw [if_neg hs] at h
          by_cases hp : opt = 'p'
          · rw [if_pos hp] at h
            injection h with h1 h2
            rw [← h1]
            exact hv
          · rw [if_neg hp] at h
            by_cases hl : opt = 'l'
            · rw [if_pos hl] at h
              injection h with h1 h2
              rw [← h1]
              exact hv
            · rw [if_neg hl] at h
              by_cases hq : opt = 'q'
              · rw [if_pos hq] at h
                exact absurd h (by simp)
              · rw [if_neg hq] at h
                injection h with h1 h2
                rw [← h1]
                exact hv
    · by_cases ha : opt = 'a'
      · rw [if_pos ha] at h
        rcases hcall : handle_add_option rest' with _ | ⟨item, rest2⟩ <;> rw [hcall] at h <;>
          exact absurd h (by simp)
      · rw [if_neg ha] at h
        by_cases hs : opt = 's'
        · rw [if_pos hs] at h
          rcases hcall : handle_search_option inv rest' with _ | ⟨inv3, rest2⟩ <;>
            rw [hcall] at h <;> exact absurd h (by simp)
        · rw [if_neg hs] at h
          by_cases hp : opt = 'p'
          · rw [if_pos hp] at h
            exact absurd h (by simp)
          · rw [if_neg hp] at h
            by_cases hl : opt = 'l'
            · rw [if_pos hl] at h
              exact absurd h (by simp)
            · rw [if_neg hl] at h
              by_cases hq : opt = 'q'
              · rw [if_pos hq] at h
                injection h with h1 h2
                rw [← h1]
                exact hv
              · rw [if_neg hq] at h
                exact absurd h (by simp)

/-- C10: every item inserted through the shell comes from the add flow,
which loops until the category is valid; hence running the shell from any
inventory satisfying the invariant (in particular the empty one it starts
with) yields an inventory in which every stored item's category lies
strictly between Invalid and Count. -/
theorem reachable_inventory_items_valid :
    ∀ (fuel : Nat) (input : List Token) (inv inv2 : Inventory) (rest : List Token),
      inv.valid → run_loop fuel inv input = some (inv2, rest) → inv2.valid := by
  intro fuel
  induction fuel with
  | zero => intro input inv inv2 rest _ h; exact absurd h (by simp [run_loop])
  | succ fuel' ih =>
    intro input inv inv2 rest hv h
    rw [run_loop] at h
    rcases hstep : main_menu_step inv input with ⟨inv3, rest2⟩ | ⟨inv3, rest2⟩ | _ <;>
      rw [hstep] at h
    · injection h with h
      injection h with h1 h2
      rw [← h1]
      exact (main_menu_step_preserves_valid inv input hv).2 inv3 rest2 hstep
    · exact ih rest2 inv3 inv2 rest
        ((main_menu_step_preserves_valid inv input hv).1 inv3 rest2 hstep) h
    · exact absurd h (by simp)

/-- Witness for C10: a run that adds one item (category 4, "SK-100") and
quits leaves a valid inventory. -/
theorem reachable_inventory_items_valid_witness :
    Inventory.valid
      ⟨[⟨4, "SK-100", 25, 12⟩]⟩ :=
  reachable_inventory_items_valid 2
    [Token.ch 'a', Token.intTok 4, Token.strTok "SK-100", Token.numTok 25, Token.intTok 12,
     Token.ch 'q']
    ⟨[]⟩ ⟨[⟨4, "SK-100", 25, 12⟩]⟩ []
    (by intro x hx; exact absurd hx (by simp)) rfl

end ShopInventory
